import Mathlib

/-!
Shallow embedding of `fastcmpstr_rs` (src/lib.rs): the prefix-cached string
type `Str` and its operations.

Modelling conventions:
* Bytes are `Nat`; a Rust `&str` / byte sequence is a `List Nat`.
* `LenType = u32`: the cast `_len as LenType` is `% 2 ^ 32`;
  `CapacityOffsetType = u16`: the cast `new_cap_offset as u16` is `% 2 ^ 16`.
* The raw pointer `suffix: *mut u8` is `Option (List Nat)`: `none` is
  `null_mut()`, `some buf` is an allocated buffer whose bytes are `buf`.
  Uninitialized bytes of a fresh allocation are modelled as `0`.
* Operations that can panic (assert failure, arithmetic underflow, slice
  range error) or hit undefined behaviour (dereferencing null, reading
  past the modelled buffer) return `Option`, with `none` for the
  panic/UB outcome.
* The Rust field `prefix` is a Lean keyword, so the Lean field is `pfx`.
-/

namespace FastCmpStr

/-- `const PREFIX_LENGTH: usize = 10` from src/lib.rs. -/
def PREFIX_LENGTH : Nat := 10

/-- The `Str` struct from src/lib.rs: `len: u32`, `prefix: [u8; 10]`
(field renamed `pfx`, a list that is length 10 for every value the code
builds), `capacity_offset: u16`, `suffix: *mut u8`. -/
structure Str where
  len : Nat
  pfx : List Nat
  capacity_offset : Nat
  suffix : Option (List Nat)
  deriving DecidableEq, Repr

/-- Model of Rust slice `a.starts_with(b)`: `b` is a byte-for-byte
initial segment of `a`. -/
def startsWithBytes : List Nat → List Nat → Bool
  | _, [] => true
  | [], _ :: _ => false
  | a :: as, b :: bs => a == b && startsWithBytes as bs

/-- `Str::from` (src/lib.rs lines 21-49). Copies `min(len, PREFIX_LENGTH)`
leading bytes into the zero-filled inline array; when the (u32-cast)
length exceeds `PREFIX_LENGTH` it allocates a suffix buffer of
`len - PREFIX_LENGTH` bytes and copies the rest into it.
(`from` is a Lean keyword, hence `fromBytes`.) -/
def Str.fromBytes (bytes : List Nat) : Str :=
  let ulen := bytes.length
  let len := ulen % 2 ^ 32
  let prefix_len := min ulen PREFIX_LENGTH
  let pfx := bytes.take prefix_len ++ List.replicate (PREFIX_LENGTH - prefix_len) 0
  let suffix : Option (List Nat) :=
    if PREFIX_LENGTH < len then some ((bytes.drop PREFIX_LENGTH).take (len - PREFIX_LENGTH))
    else none
  { len := len, pfx := pfx, capacity_offset := 0, suffix := suffix }

/-- `Str::len` (src/lib.rs lines 51-55). -/
def Str.length (self : Str) : Nat :=
  self.len

/-- `Str::is_empty` (src/lib.rs lines 57-61). -/
def Str.is_empty (self : Str) : Bool :=
  self.len == 0

/-- `Str::capacity` (src/lib.rs lines 63-68): length plus heap slack plus
the unused inline slots credited as free capacity. -/
def Str.capacity (self : Str) : Nat :=
  let prefix_extra_capactiy := PREFIX_LENGTH - min PREFIX_LENGTH self.len
  self.len + self.capacity_offset + prefix_extra_capactiy

/-- `Str::starts_with` against another `Str` (src/lib.rs lines 70-97).
Length check, then inline-array comparison over `min(PREFIX_LENGTH,
other.len)` bytes, early `true` when either value fits inline, else the
two suffix buffers are compared over the operands' remaining lengths. -/
def Str.starts_with (self other : Str) : Option Bool :=
  if self.len < other.len then some false
  else
    let other_len := other.len
    if !startsWithBytes self.pfx (other.pfx.take (min PREFIX_LENGTH other.len)) then
      some false
    else if self.len ≤ PREFIX_LENGTH ∨ other.len ≤ PREFIX_LENGTH then
      some true
    else
      match self.suffix, other.suffix with
      | some ss, some os =>
        let self_ptr_len := self.len - PREFIX_LENGTH
        let other_ptr_len := other_len - PREFIX_LENGTH
        if self_ptr_len ≤ ss.length ∧ other_ptr_len ≤ os.length then
          some (startsWithBytes (ss.take self_ptr_len) (os.take other_ptr_len))
        else none
      | _, _ => none

/-- `<Str as StartsWithStr>::starts_with` against a `&str`
(src/lib.rs lines 135-157). After the length and inline checks the code
unconditionally computes `self.len() - PREFIX_LENGTH` (underflow panic /
wrap when `self.len < PREFIX_LENGTH`) and slices
`other_bytes[PREFIX_LENGTH..]` (range panic when
`other.len < PREFIX_LENGTH`); both panics are modelled as `none`.
A null suffix read at length `0` (the `self.len = PREFIX_LENGTH` case)
reads no memory and yields the empty slice. -/
def Str.startsWithStr (self : Str) (other : List Nat) : Option Bool :=
  if self.len < other.length then some false
  else if !startsWithBytes self.pfx (other.take (min PREFIX_LENGTH other.length)) then
    some false
  else if self.len < PREFIX_LENGTH then none
  else if other.length < PREFIX_LENGTH then none
  else
    let self_ptr_len := self.len - PREFIX_LENGTH
    match self.suffix with
    | some ss =>
      if self_ptr_len ≤ ss.length then
        some (startsWithBytes (ss.take self_ptr_len) (other.drop PREFIX_LENGTH))
      else none
    | none =>
      if self_ptr_len = 0 then some (startsWithBytes [] (other.drop PREFIX_LENGTH))
      else none

/-- `<Str as Index<usize>>::index` (src/lib.rs lines 159-171): asserts
`index < len`, then reads `suffix[index - PREFIX_LENGTH]` when
`index >= PREFIX_LENGTH`, else `prefix[index]`. -/
def Str.index (self : Str) (i : Nat) : Option Nat :=
  if self.len ≤ i then none
  else if PREFIX_LENGTH ≤ i then
    match self.suffix with
    | some ss => ss[i - PREFIX_LENGTH]?
    | none => none
  else self.pfx[i]?

/-- `<Str as PartialEq>::eq` (src/lib.rs lines 173-194): length check,
whole inline-array check, then — only when `len > PREFIX_LENGTH` — a
byte-for-byte comparison of `len - PREFIX_LENGTH` bytes of each
operand's own suffix buffer. -/
def strEq (a b : Str) : Option Bool :=
  if a.len ≠ b.len then some false
  else if a.pfx ≠ b.pfx then some false
  else if PREFIX_LENGTH < a.len then
    let ptr_len := a.len - PREFIX_LENGTH
    match a.suffix, b.suffix with
    | some sa, some sb =>
      if ptr_len ≤ sa.length ∧ ptr_len ≤ sb.length then
        some (decide (sa.take ptr_len = sb.take ptr_len))
      else none
    | _, _ => none
  else some true

/-- `<Str as Display>::fmt` (src/lib.rs lines 195-211): the rendered
byte sequence, `prefix[0..min(PREFIX_LENGTH, len)]` followed by the
`len - PREFIX_LENGTH` suffix bytes when `len > PREFIX_LENGTH`. -/
def Str.render (self : Str) : Option (List Nat) :=
  let prefix_str := self.pfx.take (min PREFIX_LENGTH self.len)
  if PREFIX_LENGTH < self.len then
    match self.suffix with
    | some ss =>
      let ptr_len := self.len - PREFIX_LENGTH
      if ptr_len ≤ ss.length then some (prefix_str ++ ss.take ptr_len) else none
    | none => none
  else some prefix_str

/-- `Str::reserve` (src/lib.rs lines 99-128). No-op when the current
slack (`capacity_offset` plus unused inline slots) already covers the
request; otherwise allocates a buffer of `len + new_cap_offset` bytes
where `new_cap_offset = request - current_extra_capacity`, copies the
`len - PREFIX_LENGTH` suffix bytes into it when `len > PREFIX_LENGTH`
(bytes past the copied region stay uninitialized, modelled as `0`), and
installs the new buffer and offset. The source's dealloc statement
releases the old buffer and has no effect on the logical fields (as
written it also references an undefined variable `ptr`), so it is not
modelled. -/
def Str.reserve (self : Str) (request : Nat) : Option Str :=
  let prefix_extra_capactiy := PREFIX_LENGTH - min PREFIX_LENGTH self.len
  let current_extra_capacity := self.capacity_offset + prefix_extra_capactiy
  if request ≤ current_extra_capacity then some self
  else
    let new_cap_offset := request - current_extra_capacity
    let new_ptr_len := self.len + new_cap_offset
    let copied : Option (List Nat) :=
      if PREFIX_LENGTH < self.len then
        match self.suffix with
        | some ss =>
          if self.len - PREFIX_LENGTH ≤ ss.length then
            some (ss.take (self.len - PREFIX_LENGTH))
          else none
        | none => none
      else some []
    match copied with
    | some c =>
      some { self with
        suffix := some (c ++ List.replicate (new_ptr_len - c.length) 0)
        capacity_offset := new_cap_offset % 2 ^ 16 }
    | none => none

/-! ### Basic facts about the embedding -/

/-- Rust slice `starts_with` agrees with take-equality: `b` is an initial
segment of `a` iff taking `b.length` elements of `a` gives back `b`. -/
theorem startsWithBytes_iff (a b : List Nat) :
    startsWithBytes a b = true ↔ a.take b.length = b := by
  induction b generalizing a with
  | nil => simp [startsWithBytes]
  | cons x xs ih =>
    cases a with
    | nil => simp [startsWithBytes]
    | cons y ys =>
      simp [startsWithBytes, ih, List.take_succ_cons, and_comm]

theorem startsWithBytes_eq_decide (a b : List Nat) :
    startsWithBytes a b = decide (a.take b.length = b) := by
  rw [Bool.eq_iff_iff, startsWithBytes_iff, decide_eq_true_eq]

/-- Normal form of `Str::from` when the input length is representable. -/
theorem fromBytes_eq (bytes : List Nat) (h : bytes.length < 2 ^ 32) :
    Str.fromBytes bytes =
      { len := bytes.length
        pfx := bytes.take (min bytes.length PREFIX_LENGTH) ++
          List.replicate (PREFIX_LENGTH - min bytes.length PREFIX_LENGTH) 0
        capacity_offset := 0
        suffix := if PREFIX_LENGTH < bytes.length then some (bytes.drop PREFIX_LENGTH)
          else none } := by
  simp only [Str.fromBytes]
  rw [Nat.mod_eq_of_lt h]
  refine congrArg _ ?_
  split
  · refine congrArg _ (List.take_of_length_le ?_)
    simp
  · rfl

/-- Taking at most `min length PREFIX_LENGTH` bytes of a zero-padded
inline array reads only genuine content bytes. -/
theorem padded_take (s : List Nat) (k : Nat) (hk : k ≤ min s.length PREFIX_LENGTH) :
    (s.take (min s.length PREFIX_LENGTH) ++
        List.replicate (PREFIX_LENGTH - min s.length PREFIX_LENGTH) 0).take k = s.take k := by
  rw [List.take_append_eq_append_take]
  have h1 : (s.take (min s.length PREFIX_LENGTH)).length = min s.length PREFIX_LENGTH := by
    simp [List.length_take]
  rw [h1]
  have h2 : k - min s.length PREFIX_LENGTH = 0 := by omega
  rw [h2, List.take_take]
  have h3 : min k (min s.length PREFIX_LENGTH) = k := by omega
  rw [h3, List.take_zero, List.append_nil]

/-- Taking up to `min length PREFIX_LENGTH` bytes is the same as taking
up to `PREFIX_LENGTH` bytes. -/
theorem take_min_eq_take (a : List Nat) :
    a.take (min a.length PREFIX_LENGTH) = a.take PREFIX_LENGTH := by
  rcases le_total a.length PREFIX_LENGTH with h | h
  · rw [min_eq_left h, List.take_length, List.take_of_length_le h]
  · rw [min_eq_right h]

/-- The inline array built for a value always has `PREFIX_LENGTH` bytes. -/
theorem padded_length (s : List Nat) :
    (s.take (min s.length PREFIX_LENGTH) ++
      List.replicate (PREFIX_LENGTH - min s.length PREFIX_LENGTH) 0).length = PREFIX_LENGTH := by
  simp only [List.length_append, List.length_take, List.length_replicate]
  omega

/-- Two zero-padded inline arrays of same-length contents are equal iff
the leading `PREFIX_LENGTH` content bytes are equal. -/
theorem padded_eq_iff (a b : List Nat) (hlen : a.length = b.length) :
    (a.take (min a.length PREFIX_LENGTH) ++
        List.replicate (PREFIX_LENGTH - min a.length PREFIX_LENGTH) 0 =
      b.take (min b.length PREFIX_LENGTH) ++
        List.replicate (PREFIX_LENGTH - min b.length PREFIX_LENGTH) 0) ↔
      a.take PREFIX_LENGTH = b.take PREFIX_LENGTH := by
  rw [take_min_eq_take a, take_min_eq_take b, hlen]
  exact ⟨fun he => List.append_cancel_right he, fun he => by rw [he]⟩

/-- A list cannot equal a take of a strictly shorter list. -/
theorem take_ne_of_lt_length (s p : List Nat) (h : s.length < p.length) :
    s.take p.length ≠ p := by
  intro he
  have := congrArg List.length he
  simp [List.length_take] at this
  omega

/-- Splitting take-equality at the `PREFIX_LENGTH` boundary. -/
theorem take_eq_split (s p : List Nat) (h10 : PREFIX_LENGTH ≤ p.length) :
    s.take p.length = p ↔
      s.take PREFIX_LENGTH = p.take PREFIX_LENGTH ∧
        (s.drop PREFIX_LENGTH).take (p.length - PREFIX_LENGTH) = p.drop PREFIX_LENGTH := by
  constructor
  · intro he
    constructor
    · have := congrArg (List.take PREFIX_LENGTH) he
      rwa [List.take_take, min_eq_left h10] at this
    · have := congrArg (List.drop PREFIX_LENGTH) he
      rwa [List.drop_take] at this
  · rintro ⟨h1, h2⟩
    have hsplit : s.take p.length =
        s.take PREFIX_LENGTH ++ (s.drop PREFIX_LENGTH).take (p.length - PREFIX_LENGTH) := by
      rw [← List.take_add]
      exact congrArg (fun k => s.take k) (by omega)
    rw [hsplit, h1, h2, List.take_append_drop]

/-- Lists of equal length are equal iff their drops past an equal take
are equal. -/
theorem eq_iff_drop_eq (a b : List Nat)
    (h10 : a.take PREFIX_LENGTH = b.take PREFIX_LENGTH) :
    a = b ↔ a.drop PREFIX_LENGTH = b.drop PREFIX_LENGTH := by
  constructor
  · intro he
    rw [he]
  · intro hd
    rw [← List.take_append_drop PREFIX_LENGTH a, ← List.take_append_drop PREFIX_LENGTH b,
      h10, hd]

/-- A reservation whose request is already covered by the current slack
(`capacity() - length`) is a no-op: the same value is returned. -/
theorem reserve_noop (s : Str) (n : Nat) (hn : n ≤ s.capacity - s.length) :
    s.reserve n = some s := by
  simp only [Str.capacity, Str.length] at hn
  simp only [Str.reserve]
  rw [if_pos (by omega)]

/-- The spec's heap-buffer invariant as a boolean check on one value:
the suffix buffer is owned iff `len > PREFIX_LENGTH`. -/
def heapIffLong (s : Str) : Bool :=
  s.suffix.isSome == decide (PREFIX_LENGTH < s.len)

/-! ### Claims -/

/-- Claim C9: for every `Str` value, `capacity()` is never less than the
length, it equals `length + capacity_offset` when the length is at least
`PREFIX_LENGTH`, and for shorter values it additionally credits the
`PREFIX_LENGTH - length` unused inline slots as free capacity. -/
theorem capacity_accounting (s : Str) :
    s.length ≤ s.capacity ∧
      (PREFIX_LENGTH ≤ s.len → s.capacity = s.length + s.capacity_offset) ∧
      (s.len < PREFIX_LENGTH →
        s.capacity = s.length + s.capacity_offset + (PREFIX_LENGTH - s.len)) := by
  simp only [Str.capacity, Str.length]
  refine ⟨by omega, fun h => by omega, fun h => by omega⟩

theorem capacity_accounting_witness :
    ((⟨12, List.replicate 10 0, 3, some [0, 0, 0, 0, 0]⟩ : Str).capacity = 12 + 3) ∧
      ((⟨2, [5, 6, 0, 0, 0, 0, 0, 0, 0, 0], 0, none⟩ : Str).capacity = 2 + 0 + (PREFIX_LENGTH - 2)) :=
  ⟨(capacity_accounting ⟨12, List.replicate 10 0, 3, some [0, 0, 0, 0, 0]⟩).2.1 (by decide),
    (capacity_accounting ⟨2, [5, 6, 0, 0, 0, 0, 0, 0, 0, 0], 0, none⟩).2.2 (by decide)⟩

/-- Claim C2 (refuted, code bug): the `&str` prefix test is *not*
total on candidates shorter than `PREFIX_LENGTH`. A subject of length 12
tested against its own 3-byte prefix panics (`other_bytes[10..]` is out
of range), and a 3-byte subject tested against the empty candidate
panics (`self.len() - PREFIX_LENGTH` underflows), where the claim
demands `true` in both cases. -/
theorem startsWithStr_panics_on_short_inputs :
    (Str.fromBytes [1, 2, 3, 4, 5, 6, 7, 8, 9, 10, 11, 12]).startsWithStr [1, 2, 3] = none ∧
      (Str.fromBytes [1, 2, 3]).startsWithStr [] = none := by decide

/-- Claim C3 (refuted, code bug): `reserve` computes the new offset as
`request - current_extra_capacity`, so a second reservation ends with
slack `request - old_offset`. From an 11-byte string, `reserve(5)` then
`reserve(8)` leaves `capacity() - length() = 3 < 8`, violating the
contract `capacity() - length() >= request`. -/
theorem reserve_postcondition_violated :
    (((Str.fromBytes [0, 1, 2, 3, 4, 5, 6, 7, 8, 9, 10]).reserve 5).bind
        (fun t => t.reserve 8)).map
        (fun t => decide (8 ≤ t.capacity - t.length)) = some false := by decide

/-- Claim C4 (refuted): a growing `reserve` on a 3-byte string installs
a heap suffix buffer even though `len ≤ PREFIX_LENGTH`, so the
buffer-iff-long invariant is not preserved by every operation. -/
theorem reserve_installs_suffix_on_short :
    ((Str.fromBytes [97, 98, 99]).reserve 8).map heapIffLong = some false := by decide

/-- Claim C4 (amended): every value built by `Str::from` owns a heap
suffix buffer iff its length exceeds `PREFIX_LENGTH`, and `reserve`
preserves the value (hence the invariant) whenever the current slack
already satisfies the request; only a growing `reserve` on a short
value breaks the invariant. -/
theorem heap_iff_long_from_and_noop_reserve (s : List Nat) (h : s.length < 2 ^ 32) (n : Nat) :
    heapIffLong (Str.fromBytes s) = true ∧
      (n ≤ (Str.fromBytes s).capacity - (Str.fromBytes s).length →
        (Str.fromBytes s).reserve n = some (Str.fromBytes s)) := by
  constructor
  · rw [fromBytes_eq s h]
    by_cases hn : PREFIX_LENGTH < s.length <;> simp [heapIffLong, hn]
  · exact fun hn => reserve_noop _ n hn

theorem heap_iff_long_witness :
    heapIffLong (Str.fromBytes [4, 5, 6]) = true ∧
      (Str.fromBytes [4, 5, 6]).reserve 7 = some (Str.fromBytes [4, 5, 6]) :=
  ⟨(heap_iff_long_from_and_noop_reserve [4, 5, 6] (by decide) 7).1,
    (heap_iff_long_from_and_noop_reserve [4, 5, 6] (by decide) 7).2 (by decide)⟩

/-- Claim C6: for every byte sequence within the representable length
limit, the constructed value has the sequence's length and its textual
rendering (valid prefix bytes followed by the suffix bytes when
present) reproduces the sequence exactly, for all lengths. -/
theorem from_length_and_render (s : List Nat) (h : s.length < 2 ^ 32) :
    (Str.fromBytes s).length = s.length ∧ (Str.fromBytes s).render = some s := by
  rw [fromBytes_eq s h]
  refine ⟨rfl, ?_⟩
  simp only [Str.render]
  by_cases hn : PREFIX_LENGTH < s.length
  · have hmin : min PREFIX_LENGTH s.length = PREFIX_LENGTH := by omega
    simp only [if_pos hn, hmin, padded_take s PREFIX_LENGTH (by omega)]
    rw [if_pos (by simp)]
    have hdrop : (s.drop PREFIX_LENGTH).take (s.length - PREFIX_LENGTH) =
        s.drop PREFIX_LENGTH := List.take_of_length_le (by simp)
    rw [hdrop, List.take_append_drop]
  · have hmin : min PREFIX_LENGTH s.length = s.length := by omega
    simp only [if_neg hn, hmin, padded_take s s.length (by omega), List.take_length]

theorem from_length_and_render_witness :
    (Str.fromBytes [3, 1, 4, 1, 5, 9, 2, 6, 5, 3, 5, 8, 9]).length = 13 ∧
      (Str.fromBytes [3, 1, 4, 1, 5, 9, 2, 6, 5, 3, 5, 8, 9]).render =
        some [3, 1, 4, 1, 5, 9, 2, 6, 5, 3, 5, 8, 9] :=
  from_length_and_render [3, 1, 4, 1, 5, 9, 2, 6, 5, 3, 5, 8, 9] (by decide)

/-- Claim C7: indexed access on a constructed value returns the source
byte at every in-bounds index and fails (`none`, the out-of-bounds
panic) exactly when the index reaches the length; `s[i]?` has the same
success/failure profile by definition. -/
theorem index_matches_content (s : List Nat) (h : s.length < 2 ^ 32) (i : Nat) :
    (Str.fromBytes s).index i = s[i]? := by
  rw [fromBytes_eq s h]
  simp only [Str.index]
  by_cases h1 : s.length ≤ i
  · rw [if_pos h1, List.getElem?_eq_none h1]
  · rw [if_neg h1]
    by_cases h2 : PREFIX_LENGTH ≤ i
    · have hn : PREFIX_LENGTH < s.length := by omega
      rw [if_pos h2, if_pos hn]
      show (List.drop PREFIX_LENGTH s)[i - PREFIX_LENGTH]? = s[i]?
      rw [List.getElem?_drop]
      exact congrArg (fun k => s[k]?) (by omega)
    · rw [if_neg h2, List.getElem?_append, if_pos (by simp [List.length_take]; omega),
        List.getElem?_take, if_pos (by omega)]

theorem index_matches_content_witness :
    (Str.fromBytes [9, 8, 7, 6, 5, 4, 3, 2, 1, 0, 11, 22]).index 11 = some 22 :=
  (index_matches_content [9, 8, 7, 6, 5, 4, 3, 2, 1, 0, 11, 22] (by decide) 11).trans (by decide)

/-- `PartialEq::eq` on two constructed values decides byte-for-byte
equality of the source sequences. -/
theorem strEq_fromBytes (a b : List Nat) (ha : a.length < 2 ^ 32) (hb : b.length < 2 ^ 32) :
    strEq (Str.fromBytes a) (Str.fromBytes b) = some (decide (a = b)) := by
  rw [fromBytes_eq a ha, fromBytes_eq b hb]
  by_cases hlen : a.length = b.length
  · by_cases hn : PREFIX_LENGTH < a.length
    · rw [if_pos hn, if_pos (show PREFIX_LENGTH < b.length by omega)]
      simp only [strEq]
      rw [if_neg (show ¬ a.length ≠ b.length by omega)]
      by_cases hp : a.take PREFIX_LENGTH = b.take PREFIX_LENGTH
      · rw [if_neg (fun he => (he ((padded_eq_iff a b hlen).mpr hp)).elim), if_pos hn]
        show (if a.length - PREFIX_LENGTH ≤ (a.drop PREFIX_LENGTH).length ∧
              a.length - PREFIX_LENGTH ≤ (b.drop PREFIX_LENGTH).length then
            some (decide ((a.drop PREFIX_LENGTH).take (a.length - PREFIX_LENGTH) =
              (b.drop PREFIX_LENGTH).take (a.length - PREFIX_LENGTH)))
          else none) = some (decide (a = b))
        rw [if_pos ⟨by simp, by simp; omega⟩]
        have hda : (a.drop PREFIX_LENGTH).take (a.length - PREFIX_LENGTH) =
            a.drop PREFIX_LENGTH := List.take_of_length_le (by simp)
        have hdb : (b.drop PREFIX_LENGTH).take (a.length - PREFIX_LENGTH) =
            b.drop PREFIX_LENGTH := List.take_of_length_le (by simp; omega)
        rw [hda, hdb]
        exact congrArg some (decide_eq_decide.mpr (eq_iff_drop_eq a b hp).symm)
      · rw [if_pos (fun he => hp ((padded_eq_iff a b hlen).mp he))]
        have hne : a ≠ b := fun he => hp (by rw [he])
        simp [hne]
    · rw [if_neg hn, if_neg (show ¬ PREFIX_LENGTH < b.length by omega)]
      simp only [strEq]
      rw [if_neg (show ¬ a.length ≠ b.length by omega)]
      by_cases hp : a.take PREFIX_LENGTH = b.take PREFIX_LENGTH
      · rw [if_neg (fun he => (he ((padded_eq_iff a b hlen).mpr hp)).elim), if_neg hn]
        have hab : a = b := by
          rw [List.take_of_length_le (show a.length ≤ PREFIX_LENGTH by omega),
            List.take_of_length_le (show b.length ≤ PREFIX_LENGTH by omega)] at hp
          exact hp
        simp [hab]
      · rw [if_pos (fun he => hp ((padded_eq_iff a b hlen).mp he))]
        have hne : a ≠ b := fun he => hp (by rw [he])
        simp [hne]
  · simp only [strEq]
    rw [if_pos (show (a.length : Nat) ≠ b.length from hlen)]
    have hne : a ≠ b := fun he => hlen (by rw [he])
    simp [hne]

/-- Claim C1: equality on two constructed values returns `true` iff the
source sequences have identical length and identical content byte for
byte; the comparison reads each operand's own suffix buffer, so values
sharing the first `PREFIX_LENGTH` bytes but differing later compare
unequal (`some false`, never `some true` nor a null dereference). -/
theorem eq_matches_content (a b : List Nat) (ha : a.length < 2 ^ 32) (hb : b.length < 2 ^ 32) :
    strEq (Str.fromBytes a) (Str.fromBytes b) = some (decide (a = b)) :=
  strEq_fromBytes a b ha hb

theorem eq_matches_content_witness :
    strEq (Str.fromBytes [1, 2, 3, 4, 5, 6, 7, 8, 9, 10, 11, 12])
        (Str.fromBytes [1, 2, 3, 4, 5, 6, 7, 8, 9, 10, 11, 13]) = some false ∧
      strEq (Str.fromBytes [1, 2, 3, 4, 5, 6, 7, 8, 9, 10, 11, 12])
        (Str.fromBytes [1, 2, 3, 4, 5, 6, 7, 8, 9, 10, 11, 12]) = some true :=
  ⟨(eq_matches_content [1, 2, 3, 4, 5, 6, 7, 8, 9, 10, 11, 12]
      [1, 2, 3, 4, 5, 6, 7, 8, 9, 10, 11, 13] (by decide) (by decide)).trans (by decide),
    (eq_matches_content [1, 2, 3, 4, 5, 6, 7, 8, 9, 10, 11, 12]
      [1, 2, 3, 4, 5, 6, 7, 8, 9, 10, 11, 12] (by decide) (by decide)).trans (by decide)⟩

/-- `Str::starts_with` on two constructed values decides whether the
candidate's bytes are an initial segment of the subject's bytes. -/
theorem starts_with_fromBytes (s p : List Nat) (hs : s.length < 2 ^ 32)
    (hp : p.length < 2 ^ 32) :
    (Str.fromBytes s).starts_with (Str.fromBytes p) =
      some (decide (s.take p.length = p)) := by
  rw [fromBytes_eq s hs, fromBytes_eq p hp]
  by_cases hmn : s.length < p.length
  · simp only [Str.starts_with]
    rw [if_pos hmn]
    have hne := take_ne_of_lt_length s p hmn
    simp [hne]
  · push_neg at hmn
    simp only [Str.starts_with]
    rw [if_neg (show ¬ s.length < p.length by omega)]
    have hcand : (p.take (min p.length PREFIX_LENGTH) ++
        List.replicate (PREFIX_LENGTH - min p.length PREFIX_LENGTH) 0).take
          (min PREFIX_LENGTH p.length) = p.take (min PREFIX_LENGTH p.length) :=
      padded_take p _ (by omega)
    rw [hcand]
    have hchk : startsWithBytes
        (s.take (min s.length PREFIX_LENGTH) ++
          List.replicate (PREFIX_LENGTH - min s.length PREFIX_LENGTH) 0)
        (p.take (min PREFIX_LENGTH p.length)) =
        decide (s.take (min PREFIX_LENGTH p.length) =
          p.take (min PREFIX_LENGTH p.length)) := by
      rw [startsWithBytes_eq_decide]
      have hl : (p.take (min PREFIX_LENGTH p.length)).length = min PREFIX_LENGTH p.length := by
        simp only [List.length_take]
        omega
      rw [hl, padded_take s _ (by omega)]
    rw [hchk]
    by_cases hm10 : p.length ≤ PREFIX_LENGTH
    · have hminp : min PREFIX_LENGTH p.length = p.length := by omega
      rw [hminp, List.take_length]
      by_cases hc : s.take p.length = p
      · rw [if_neg (by simp [hc]), if_pos (Or.inr hm10)]
        simp [hc]
      · rw [if_pos (by simp [hc])]
        simp [hc]
    · have hminp : min PREFIX_LENGTH p.length = PREFIX_LENGTH := by omega
      rw [hminp]
      by_cases hc : s.take PREFIX_LENGTH = p.take PREFIX_LENGTH
      · rw [if_neg (by simp [hc]), if_neg (by omega),
          if_pos (show PREFIX_LENGTH < s.length by omega),
          if_pos (show PREFIX_LENGTH < p.length by omega)]
        show (if s.length - PREFIX_LENGTH ≤ (s.drop PREFIX_LENGTH).length ∧
              p.length - PREFIX_LENGTH ≤ (p.drop PREFIX_LENGTH).length then
            some (startsWithBytes ((s.drop PREFIX_LENGTH).take (s.length - PREFIX_LENGTH))
              ((p.drop PREFIX_LENGTH).take (p.length - PREFIX_LENGTH)))
          else none) = some (decide (s.take p.length = p))
        rw [if_pos ⟨by simp, by simp⟩]
        have h1 : (s.drop PREFIX_LENGTH).take (s.length - PREFIX_LENGTH) =
            s.drop PREFIX_LENGTH := List.take_of_length_le (by simp)
        have h2 : (p.drop PREFIX_LENGTH).take (p.length - PREFIX_LENGTH) =
            p.drop PREFIX_LENGTH := List.take_of_length_le (by simp)
        rw [h1, h2, startsWithBytes_eq_decide]
        have hl2 : (p.drop PREFIX_LENGTH).length = p.length - PREFIX_LENGTH := by simp
        rw [hl2]
        refine congrArg some (decide_eq_decide.mpr ?_)
        rw [take_eq_split s p (by omega)]
        simp [hc]
      · rw [if_pos (by simp [hc])]
        have hne : s.take p.length ≠ p := by
          intro he
          exact hc ((take_eq_split s p (by omega)).mp he).1
        simp [hne]

/-- Claim C5: every constructed value starts with itself, and for any
two constructed values the same-type prefix test returns `true` iff the
candidate's bytes are a byte-for-byte prefix of the subject's bytes
(`some false` otherwise, even when the lengths coincide). -/
theorem starts_with_matches_content (s p : List Nat) (hs : s.length < 2 ^ 32)
    (hp : p.length < 2 ^ 32) :
    (Str.fromBytes s).starts_with (Str.fromBytes s) = some true ∧
      (Str.fromBytes s).starts_with (Str.fromBytes p) =
        some (decide (s.take p.length = p)) := by
  refine ⟨?_, starts_with_fromBytes s p hs hp⟩
  rw [starts_with_fromBytes s s hs hs]
  simp [List.take_length]

theorem starts_with_matches_content_witness :
    (Str.fromBytes [5, 6, 7, 8, 9, 10, 11, 12, 13, 14, 15, 16]).starts_with
        (Str.fromBytes [5, 6, 7, 8, 9, 10, 11, 12, 13, 14, 15, 16]) = some true ∧
      (Str.fromBytes [5, 6, 7, 8, 9, 10, 11, 12, 13, 14, 15, 16]).starts_with
        (Str.fromBytes [5, 6, 7, 8, 9, 10, 11, 12, 13, 14, 15]) = some true :=
  ⟨(starts_with_matches_content [5, 6, 7, 8, 9, 10, 11, 12, 13, 14, 15, 16]
      [5, 6, 7, 8, 9, 10, 11, 12, 13, 14, 15] (by decide) (by decide)).1,
    ((starts_with_matches_content [5, 6, 7, 8, 9, 10, 11, 12, 13, 14, 15, 16]
      [5, 6, 7, 8, 9, 10, 11, 12, 13, 14, 15] (by decide) (by decide)).2).trans (by decide)⟩

/-- Equality never reaches the suffix branch when either operand is
short: every suffix dereference sits under the `len > PREFIX_LENGTH`
check (and the length-equality check). -/
theorem strEq_isSome_of_short (a b : Str)
    (h : a.len ≤ PREFIX_LENGTH ∨ b.len ≤ PREFIX_LENGTH) :
    (strEq a b).isSome = true := by
  simp only [strEq]
  split
  next => simp
  next hne =>
    rw [not_ne_iff] at hne
    split
    next => simp
    next =>
      split
      next hgt => exact absurd hgt (by omega)
      next => simp

/-- The same-type prefix test never reaches the suffix branch when
either operand is short: the inline comparison is conclusive. -/
theorem starts_with_isSome_of_short (a b : Str)
    (h : a.len ≤ PREFIX_LENGTH ∨ b.len ≤ PREFIX_LENGTH) :
    (a.starts_with b).isSome = true := by
  simp only [Str.starts_with]
  split
  next => simp
  next => split <;> simp

/-- Claim C10: a freshly constructed value of length at most
`PREFIX_LENGTH` has a null suffix pointer, and equality (either side),
the same-type prefix test (either side), display rendering, and
in-bounds indexing all succeed on it — every suffix read in those
operations is guarded by a `len > PREFIX_LENGTH` check, so the null
pointer is never dereferenced. -/
theorem short_value_never_touches_suffix (s : List Nat) (hs : s.length ≤ PREFIX_LENGTH)
    (b : Str) (i : Nat) (hi : i < s.length) :
    (Str.fromBytes s).suffix = none ∧
      (strEq (Str.fromBytes s) b).isSome = true ∧
      (strEq b (Str.fromBytes s)).isSome = true ∧
      ((Str.fromBytes s).starts_with b).isSome = true ∧
      (b.starts_with (Str.fromBytes s)).isSome = true ∧
      (Str.fromBytes s).render.isSome = true ∧
      ((Str.fromBytes s).index i).isSome = true := by
  have h32 : s.length < 2 ^ 32 := by
    have hp32 : PREFIX_LENGTH < 2 ^ 32 := by decide
    omega
  have hshort : (Str.fromBytes s).len ≤ PREFIX_LENGTH := by
    rw [fromBytes_eq s h32]
    exact hs
  refine ⟨?_, strEq_isSome_of_short _ b (Or.inl hshort),
    strEq_isSome_of_short b _ (Or.inr hshort),
    starts_with_isSome_of_short _ b (Or.inl hshort),
    starts_with_isSome_of_short b _ (Or.inr hshort), ?_, ?_⟩
  · rw [fromBytes_eq s h32]
    exact if_neg (by omega)
  · rw [fromBytes_eq s h32]
    simp only [Str.render]
    rw [if_neg (by omega)]
    simp
  · rw [fromBytes_eq s h32]
    simp only [Str.index]
    rw [if_neg (by omega), if_neg (by omega),
      List.getElem?_eq_getElem (by rw [padded_length]; omega)]
    simp

theorem short_value_never_touches_suffix_witness :
    (Str.fromBytes [7, 8, 9]).suffix = none ∧
      (strEq (Str.fromBytes [7, 8, 9])
        (Str.fromBytes [1, 2, 3, 4, 5, 6, 7, 8, 9, 10, 11, 12])).isSome = true ∧
      (strEq (Str.fromBytes [1, 2, 3, 4, 5, 6, 7, 8, 9, 10, 11, 12])
        (Str.fromBytes [7, 8, 9])).isSome = true ∧
      ((Str.fromBytes [7, 8, 9]).starts_with
        (Str.fromBytes [1, 2, 3, 4, 5, 6, 7, 8, 9, 10, 11, 12])).isSome = true ∧
      ((Str.fromBytes [1, 2, 3, 4, 5, 6, 7, 8, 9, 10, 11, 12]).starts_with
        (Str.fromBytes [7, 8, 9])).isSome = true ∧
      (Str.fromBytes [7, 8, 9]).render.isSome = true ∧
      ((Str.fromBytes [7, 8, 9]).index 2).isSome = true :=
  short_value_never_touches_suffix [7, 8, 9] (by decide)
    (Str.fromBytes [1, 2, 3, 4, 5, 6, 7, 8, 9, 10, 11, 12]) 2 (by decide)

/-- A value whose suffix buffer carries the same `len - PREFIX_LENGTH`
content bytes followed by arbitrary slack bytes compares equal (both
ways) and renders identically to the original. -/
theorem strEq_append_junk (L : Nat) (P D R : List Nat) (hlong : PREFIX_LENGTH < L)
    (hD : D.length = L - PREFIX_LENGTH) (c : Nat) :
    strEq ⟨L, P, c, some (D ++ R)⟩ ⟨L, P, 0, some D⟩ = some true ∧
      strEq ⟨L, P, 0, some D⟩ ⟨L, P, c, some (D ++ R)⟩ = some true ∧
      Str.render ⟨L, P, c, some (D ++ R)⟩ = Str.render ⟨L, P, 0, some D⟩ := by
  have htake1 : (D ++ R).take (L - PREFIX_LENGTH) = D := by
    rw [← hD, List.take_left]
  have htake2 : D.take (L - PREFIX_LENGTH) = D := List.take_of_length_le (by omega)
  refine ⟨?_, ?_, ?_⟩
  · simp only [strEq]
    rw [if_neg (fun hc => hc rfl), if_neg (fun hc => hc rfl), if_pos hlong]
    show (if L - PREFIX_LENGTH ≤ (D ++ R).length ∧ L - PREFIX_LENGTH ≤ D.length then
        some (decide ((D ++ R).take (L - PREFIX_LENGTH) = D.take (L - PREFIX_LENGTH)))
      else none) = some true
    rw [if_pos ⟨by rw [List.length_append]; omega, by omega⟩, htake1, htake2]
    simp
  · simp only [strEq]
    rw [if_neg (fun hc => hc rfl), if_neg (fun hc => hc rfl), if_pos hlong]
    show (if L - PREFIX_LENGTH ≤ D.length ∧ L - PREFIX_LENGTH ≤ (D ++ R).length then
        some (decide (D.take (L - PREFIX_LENGTH) = (D ++ R).take (L - PREFIX_LENGTH)))
      else none) = some true
    rw [if_pos ⟨by omega, by rw [List.length_append]; omega⟩, htake1, htake2]
    simp
  · simp only [Str.render]
    rw [if_pos hlong, if_pos hlong]
    show (if L - PREFIX_LENGTH ≤ (D ++ R).length then
        some (P.take (min PREFIX_LENGTH L) ++ (D ++ R).take (L - PREFIX_LENGTH)) else none) =
      (if L - PREFIX_LENGTH ≤ D.length then
        some (P.take (min PREFIX_LENGTH L) ++ D.take (L - PREFIX_LENGTH)) else none)
    rw [if_pos (by rw [List.length_append]; omega), if_pos (by omega), htake1, htake2]

/-- A short value compares equal (both ways) and renders identically to
its original regardless of what buffer now sits in `suffix`: neither
equality nor rendering reads the buffer when `len ≤ PREFIX_LENGTH`. -/
theorem strEq_junk_short (L : Nat) (P : List Nat) (hshort : ¬ PREFIX_LENGTH < L)
    (c : Nat) (o : Option (List Nat)) :
    strEq ⟨L, P, c, o⟩ ⟨L, P, 0, none⟩ = some true ∧
      strEq ⟨L, P, 0, none⟩ ⟨L, P, c, o⟩ = some true ∧
      Str.render ⟨L, P, c, o⟩ = Str.render ⟨L, P, 0, none⟩ := by
  refine ⟨?_, ?_, ?_⟩
  · simp only [strEq]
    rw [if_neg (fun hc => hc rfl), if_neg (fun hc => hc rfl), if_neg hshort]
  · simp only [strEq]
    rw [if_neg (fun hc => hc rfl), if_neg (fun hc => hc rfl), if_neg hshort]
  · simp only [Str.render]
    rw [if_neg hshort, if_neg hshort]

/-- Claim C8: a reservation never changes the value's length or logical
content — the result still compares equal (both ways) to the
pre-reservation value and renders to the same bytes. -/
theorem reserve_keeps_content (s : List Nat) (h : s.length < 2 ^ 32) (n : Nat) (t : Str)
    (hr : (Str.fromBytes s).reserve n = some t) :
    t.len = (Str.fromBytes s).len ∧ strEq t (Str.fromBytes s) = some true ∧
      strEq (Str.fromBytes s) t = some true ∧ t.render = (Str.fromBytes s).render := by
  have hself : strEq (Str.fromBytes s) (Str.fromBytes s) = some true := by
    rw [strEq_fromBytes s s h h]
    simp
  rw [fromBytes_eq s h] at hr hself ⊢
  simp only [Str.reserve] at hr
  split at hr
  next hnop =>
    obtain rfl := Option.some.inj hr
    exact ⟨rfl, hself, hself, rfl⟩
  next hnop =>
    split at hr
    next x ss heq =>
      by_cases hlong : PREFIX_LENGTH < s.length
      · have hta : (s.drop PREFIX_LENGTH).take (s.length - PREFIX_LENGTH) =
            s.drop PREFIX_LENGTH := List.take_of_length_le (by simp)
        simp only [if_pos hlong, List.length_drop, le_refl, if_true, hta,
          Option.some.injEq] at heq
        subst heq
        obtain rfl := Option.some.inj hr
        rw [if_pos hlong]
        have hjunk := strEq_append_junk s.length
          (s.take (min s.length PREFIX_LENGTH) ++
            List.replicate (PREFIX_LENGTH - min s.length PREFIX_LENGTH) 0)
          (s.drop PREFIX_LENGTH)
          (List.replicate (s.length +
            (n - (0 + (PREFIX_LENGTH - min PREFIX_LENGTH s.length))) -
              (s.drop PREFIX_LENGTH).length) 0)
          hlong (by simp)
          ((n - (0 + (PREFIX_LENGTH - min PREFIX_LENGTH s.length))) % 2 ^ 16)
        exact ⟨rfl, hjunk.1, hjunk.2.1, hjunk.2.2⟩
      · simp only [if_neg hlong, Option.some.injEq] at heq
        subst heq
        obtain rfl := Option.some.inj hr
        rw [if_neg hlong]
        have hjunk := strEq_junk_short s.length
          (s.take (min s.length PREFIX_LENGTH) ++
            List.replicate (PREFIX_LENGTH - min s.length PREFIX_LENGTH) 0)
          hlong
          ((n - (0 + (PREFIX_LENGTH - min PREFIX_LENGTH s.length))) % 2 ^ 16)
          (some ([] ++ List.replicate (s.length +
            (n - (0 + (PREFIX_LENGTH - min PREFIX_LENGTH s.length))) -
              (List.length ([] : List Nat))) 0))
        exact ⟨rfl, hjunk.1, hjunk.2.1, hjunk.2.2⟩
    next x heq => exact Option.noConfusion hr

theorem reserve_keeps_content_witness :
    (⟨12, [1, 2, 3, 4, 5, 6, 7, 8, 9, 10], 6,
        some [11, 12, 0, 0, 0, 0, 0, 0, 0, 0, 0, 0, 0, 0, 0, 0, 0, 0]⟩ : Str).len =
      (Str.fromBytes [1, 2, 3, 4, 5, 6, 7, 8, 9, 10, 11, 12]).len ∧
      strEq ⟨12, [1, 2, 3, 4, 5, 6, 7, 8, 9, 10], 6,
        some [11, 12, 0, 0, 0, 0, 0, 0, 0, 0, 0, 0, 0, 0, 0, 0, 0, 0]⟩
        (Str.fromBytes [1, 2, 3, 4, 5, 6, 7, 8, 9, 10, 11, 12]) = some true ∧
      strEq (Str.fromBytes [1, 2, 3, 4, 5, 6, 7, 8, 9, 10, 11, 12])
        ⟨12, [1, 2, 3, 4, 5, 6, 7, 8, 9, 10], 6,
          some [11, 12, 0, 0, 0, 0, 0, 0, 0, 0, 0, 0, 0, 0, 0, 0, 0, 0]⟩ = some true ∧
      (⟨12, [1, 2, 3, 4, 5, 6, 7, 8, 9, 10], 6,
        some [11, 12, 0, 0, 0, 0, 0, 0, 0, 0, 0, 0, 0, 0, 0, 0, 0, 0]⟩ : Str).render =
        (Str.fromBytes [1, 2, 3, 4, 5, 6, 7, 8, 9, 10, 11, 12]).render :=
  reserve_keeps_content [1, 2, 3, 4, 5, 6, 7, 8, 9, 10, 11, 12] (by decide) 6
    ⟨12, [1, 2, 3, 4, 5, 6, 7, 8, 9, 10], 6,
      some [11, 12, 0, 0, 0, 0, 0, 0, 0, 0, 0, 0, 0, 0, 0, 0, 0, 0]⟩ (by decide)

end FastCmpStr
